import Mathlib

/-!
Shallow embedding of `go-import-inspector` (src/main.go).

The program builds a dependency graph for Go packages: `Import` recursively
resolves a package and its transitive dependencies, memoizing resolved
packages in a cache (which also breaks import cycles) and recording direct
dependency edges in an edge table; `CoundDepsRecursive` counts the nodes of
the edge table reachable from a root through a pruning filter, and
`IsStandardPackage` classifies import paths.

The external resolver `build.Import` is modelled as an arbitrary function
returning either a package descriptor or an error.  Go maps are modelled as
functions into `Option`.  The recursion of `Import` and `addDeps` is made
total with an explicit fuel parameter (`none` = fuel exhausted); fuel
sufficiency for finite package universes is proved below, which is the
termination argument for the Go code.
-/

/-- `build.Package` restricted to the fields the program reads:
`ImportPath` (canonical identifier), `Dir` (source directory) and
`Imports` (direct import list, as written in source). -/
structure GoPackage where
  importPath : String
  dir : String
  directImports : List String
deriving DecidableEq

/-- The external resolver `build.Import(path, srcDir, 0)`: success yields a
package descriptor, failure an error. -/
abbrev Resolver := String → String → Except String GoPackage

/-- The mutable state of a `DependencyManager`: the `PackageCache`
(map from `ImportPath` to `*build.Package`) and the dependency edge table
(map from `ImportPath` to a set of `ImportPath`s; a missing or `nil` inner
map is modelled by `none`, the set by a duplicate-free list). -/
structure DMState where
  cache : String → Option GoPackage
  deps : String → Option (List String)

/-- `PackageCache.Put`: insert-or-overwrite keyed by the descriptor's
`ImportPath`. -/
def putCache (st : DMState) (pkg : GoPackage) : DMState :=
  { st with cache := fun k => if k = pkg.importPath then some pkg else st.cache k }

/-- `m.dependencies[p][q] = struct{}{}` together with the preceding
`nil`-map check: ensure the inner set for `p` exists, then add `q` to it. -/
def addEdge (st : DMState) (p q : String) : DMState :=
  { st with deps := fun k =>
      if k = p then
        match st.deps p with
        | none => some [q]
        | some s => some (if q ∈ s then s else s ++ [q])
      else st.deps k }

/-- `NewDependencyManager()`: both maps start empty. -/
def initState : DMState := ⟨fun _ => none, fun _ => none⟩

/-- The `for _, im := range pkg.Imports` loop body of
`DependencyManager.Import`, abstracted over the recursive call `step`:
skip the cgo sentinel `"C"`, resolve each other entry, fail fast on the
first error, and record an edge from `pkgPath` to each resolved entry. -/
def forEachIm (step : DMState → String → Option (Except String GoPackage × DMState))
    (pkgPath : String) : DMState → List String → Option (Except String Unit × DMState)
  | st, [] => some (.ok (), st)
  | st, im :: rest =>
    if im = "C" then forEachIm step pkgPath st rest
    else
      match step st im with
      | none => none
      | some (.error e, st2) => some (.error e, st2)
      | some (.ok importedPkg, st2) =>
          forEachIm step pkgPath (addEdge st2 pkgPath importedPkg.importPath) rest

/-- `DependencyManager.Import(path, srcDir)`: resolve, return the cached
descriptor if the canonical path is already cached, otherwise cache the
fresh descriptor first and only then recursively resolve its direct
entries, recording edges.  `none` means the fuel ran out (the Go code has
no fuel; fuel sufficiency is proved below). -/
def Import (r : Resolver) : Nat → DMState → String → String →
    Option (Except String GoPackage × DMState)
  | 0, _, _, _ => none
  | fuel + 1, st, path, srcDir =>
    match r path srcDir with
    | .error e => some (.error e, st)
    | .ok pkg =>
      match st.cache pkg.importPath with
      | some cachedPkg => some (.ok cachedPkg, st)
      | none =>
        match forEachIm (fun st2 im => Import r fuel st2 im pkg.dir)
            pkg.importPath (putCache st pkg) pkg.directImports with
        | none => none
        | some (.error e, st2) => some (.error e, st2)
        | some (.ok _, st2) => some (.ok pkg, st2)

/-- The `for im := range m.dependencies[path]` loop of
`DependencyManager.addDeps`, abstracted over the recursive call `step`. -/
def forEachDep (step : List String → String → Option (List String)) :
    List String → List String → Option (List String)
  | deps, [] => some deps
  | deps, im :: rest =>
    match step deps im with
    | none => none
    | some deps2 => forEachDep step deps2 rest

/-- `DependencyManager.addDeps(deps, path, keep)`: if the filter rejects
`path`, return with no change; if `path` is already visited, return;
otherwise mark `path` visited and recurse into its recorded direct
dependencies.  The visited set is a duplicate-free list; `none` means the
fuel ran out. -/
def addDeps (d : String → Option (List String)) :
    Nat → List String → String → (String → Bool) → Option (List String)
  | 0, _, _, _ => none
  | fuel + 1, deps, path, keep =>
    if keep path = false then some deps
    else if path ∈ deps then some deps
    else forEachDep (fun ds im => addDeps d fuel ds im keep)
      (deps ++ [path]) ((d path).getD [])

/-- `DependencyManager.CoundDepsRecursive(path, keep)`: the size of the
visited set produced by `addDeps` from an empty visited set. -/
def CoundDepsRecursive (d : String → Option (List String)) (fuel : Nat)
    (path : String) (keep : String → Bool) : Option Nat :=
  (addDeps d fuel [] path keep).map List.length

/-- `strings.SplitN(s, sep, 2)` over the character list of `s`: at most two
chunks, the first being everything before the first separator occurrence,
the second the remainder after it; the whole string if `sep` is absent. -/
def goSplitN2 (s : String) (sep : Char) : List (List Char) :=
  if sep ∈ s.toList then
    [s.toList.takeWhile (fun c => c ≠ sep), (s.toList.dropWhile (fun c => c ≠ sep)).tail]
  else [s.toList]

/-- `IsStandardPackage(importPath)`: the first chunk of
`strings.SplitN(importPath, "/", 2)` contains no dot. -/
def IsStandardPackage (importPath : String) : Bool :=
  let x := goSplitN2 importPath '/'
  !((x.headD []).contains '.')

/-- The spec's phrase "first path segment": the part of the string before
the first slash. -/
def firstSegment (s : String) : List Char :=
  s.toList.takeWhile (fun c => c ≠ '/')

/-- Cache growth: every cached descriptor of `st` is still cached, with the
same value, in `st2`. -/
def cacheLe (st st2 : DMState) : Prop :=
  ∀ k v, st.cache k = some v → st2.cache k = some v

/-- The resolver only ever produces descriptors whose canonical identifier
lies in the finite universe `U` (a finite import graph). -/
def Bounded (r : Resolver) (U : Finset String) : Prop :=
  ∀ path srcDir pkg, r path srcDir = Except.ok pkg → pkg.importPath ∈ U

/-- How many identifiers of the universe `U` are not yet cached. -/
def missingCount (U : Finset String) (st : DMState) : Nat :=
  (U.filter (fun p => st.cache p = none)).card

/-- The cache maps each key to a descriptor whose canonical identifier is
that key (`Put` always stores under `pkg.ImportPath`). -/
def CacheKeyed (st : DMState) : Prop :=
  ∀ k pkg, st.cache k = some pkg → pkg.importPath = k

/-- Every edge recorded in the edge table points to an already-resolved
package: each target of each recorded dependency set is in the cache. -/
def EdgesResolved (st : DMState) : Prop :=
  ∀ p s, st.deps p = some s → ∀ q ∈ s, (st.cache q).isSome

/-- Cycle example: package A imports B. -/
def pkgA : GoPackage := ⟨"A", "/a", ["B"]⟩

/-- Cycle example: package B imports A. -/
def pkgB : GoPackage := ⟨"B", "/b", ["A"]⟩

/-- A resolver for the two-package import cycle A -> B -> A. -/
def rAB : Resolver := fun path _ =>
  if path = "A" then Except.ok pkgA
  else if path = "B" then Except.ok pkgB
  else Except.error "not found"

/-- Failure example: package P imports A and then B. -/
def pkgP : GoPackage := ⟨"P", "/p", ["A", "B"]⟩

/-- A leaf package with canonical identifier A and no direct entries. -/
def pkgA0 : GoPackage := ⟨"A", "/a", []⟩

/-- A resolver where P and A resolve but B fails to resolve. -/
def rPAB : Resolver := fun path _ =>
  if path = "P" then Except.ok pkgP
  else if path = "A" then Except.ok pkgA0
  else Except.error "B not found"

/-- cgo example: package P lists the sentinel "C" and then A. -/
def pkgCgo : GoPackage := ⟨"P", "/p", ["C", "A"]⟩

/-- A resolver for the cgo example; note it cannot resolve "C". -/
def rCgo : Resolver := fun path _ =>
  if path = "P" then Except.ok pkgCgo
  else if path = "A" then Except.ok pkgA0
  else Except.error "no such package"

/-- Edge table of the chain A -> B -> C. -/
def exChainD : String → Option (List String) := fun p =>
  if p = "A" then some ["B"]
  else if p = "B" then some ["C"]
  else none

/-- A filter rejecting exactly the identifier B. -/
def keepNotB : String → Bool := fun s => !(s == "B")

/-- Edge table of the diamond A -> B, A -> C, B -> D, C -> D. -/
def exDiamond : String → Option (List String) := fun p =>
  if p = "A" then some ["B", "C"]
  else if p = "B" then some ["D"]
  else if p = "C" then some ["D"]
  else none

/-- Witness package Q whose single direct entry fails to resolve. -/
def pkgQ : GoPackage := ⟨"Q", "/q", ["B"]⟩

/-- A resolver where only Q resolves. -/
def rQ : Resolver := fun path _ =>
  if path = "Q" then Except.ok pkgQ
  else Except.error "B not found"

theorem cacheLe_refl (st : DMState) : cacheLe st st := fun _ _ h => h

theorem cacheLe_trans {s1 s2 s3 : DMState} (h12 : cacheLe s1 s2) (h23 : cacheLe s2 s3) :
    cacheLe s1 s3 := fun k v h => h23 k v (h12 k v h)

theorem addEdge_cache (st : DMState) (p q : String) : (addEdge st p q).cache = st.cache := rfl

theorem addEdge_missingCount (U : Finset String) (st : DMState) (p q : String) :
    missingCount U (addEdge st p q) = missingCount U st := rfl

theorem cacheLe_addEdge (st : DMState) (p q : String) : cacheLe st (addEdge st p q) :=
  fun _ _ h => h

theorem cacheLe_putCache {st : DMState} {pkg : GoPackage}
    (h : st.cache pkg.importPath = none) : cacheLe st (putCache st pkg) := by
  intro k v hk
  show (if k = pkg.importPath then some pkg else st.cache k) = some v
  by_cases hkp : k = pkg.importPath
  · rw [hkp] at hk
    rw [hk] at h
    exact absurd h (by simp)
  · simp [hkp, hk]

theorem forEachIm_mono (step : DMState → String → Option (Except String GoPackage × DMState))
    (pkgPath : String)
    (hstep : ∀ st im out, step st im = some out → cacheLe st out.2) :
    ∀ ims st out, forEachIm step pkgPath st ims = some out → cacheLe st out.2 := by
  intro ims
  induction ims with
  | nil =>
    intro st out h
    simp only [forEachIm, Option.some.injEq] at h
    rw [← h]
    exact cacheLe_refl st
  | cons im rest ih =>
    intro st out h
    simp only [forEachIm] at h
    by_cases hC : im = "C"
    · rw [if_pos hC] at h
      exact ih st out h
    · rw [if_neg hC] at h
      cases hs : step st im with
      | none => rw [hs] at h; exact absurd h (by simp)
      | some res =>
        rw [hs] at h
        obtain ⟨res1, st2⟩ := res
        cases res1 with
        | error e =>
          simp only [Option.some.injEq] at h
          rw [← h]
          exact hstep st im (Except.error e, st2) hs
        | ok importedPkg =>
          simp only at h
          have h1 : cacheLe st st2 := hstep st im (Except.ok importedPkg, st2) hs
          have h2 := ih (addEdge st2 pkgPath importedPkg.importPath) out h
          exact cacheLe_trans h1 (cacheLe_trans (cacheLe_addEdge st2 _ _) h2)

theorem Import_mono (r : Resolver) :
    ∀ fuel st path srcDir out, Import r fuel st path srcDir = some out → cacheLe st out.2 := by
  intro fuel
  induction fuel with
  | zero => intro st path srcDir out h; exact absurd h (by simp [Import])
  | succ fuel ih =>
    intro st path srcDir out h
    simp only [Import] at h
    split at h
    · simp only [Option.some.injEq] at h
      rw [← h]
      exact cacheLe_refl st
    · rename_i pkg _
      split at h
      · simp only [Option.some.injEq] at h
        rw [← h]
        exact cacheLe_refl st
      · rename_i hc
        have hput : cacheLe st (putCache st pkg) := cacheLe_putCache hc
        split at h
        · exact absurd h (by simp)
        · rename_i e st2 hf
          have hloop := forEachIm_mono _ pkg.importPath
            (fun st3 im out2 h2 => ih st3 im pkg.dir out2 h2) pkg.directImports
            (putCache st pkg) (Except.error e, st2) hf
          simp only [Option.some.injEq] at h
          rw [← h]
          exact cacheLe_trans hput hloop
        · rename_i u st2 hf
          have hloop := forEachIm_mono _ pkg.importPath
            (fun st3 im out2 h2 => ih st3 im pkg.dir out2 h2) pkg.directImports
            (putCache st pkg) (Except.ok u, st2) hf
          simp only [Option.some.injEq] at h
          rw [← h]
          exact cacheLe_trans hput hloop

theorem missingCount_le_of_cacheLe {st st2 : DMState} (U : Finset String)
    (h : cacheLe st st2) : missingCount U st2 ≤ missingCount U st := by
  apply Finset.card_le_card
  intro p hp
  simp only [Finset.mem_filter] at hp ⊢
  refine ⟨hp.1, ?_⟩
  cases hc : st.cache p with
  | none => rfl
  | some v => exact absurd (h p v hc) (by simp [hp.2])

theorem missingCount_putCache_lt {st : DMState} {pkg : GoPackage} (U : Finset String)
    (hmem : pkg.importPath ∈ U) (hnone : st.cache pkg.importPath = none) :
    missingCount U (putCache st pkg) < missingCount U st := by
  have hsub : Finset.filter (fun p => (putCache st pkg).cache p = none) U ⊆
      Finset.filter (fun p => st.cache p = none) U := by
    intro p hp
    simp only [Finset.mem_filter] at hp ⊢
    refine ⟨hp.1, ?_⟩
    by_cases hpk : p = pkg.importPath
    · exact absurd hp.2 (by simp [putCache, hpk])
    · simpa [putCache, hpk] using hp.2
  apply Finset.card_lt_card
  rw [Finset.ssubset_iff_of_subset hsub]
  exact ⟨pkg.importPath, Finset.mem_filter.mpr ⟨hmem, hnone⟩,
    by simp [Finset.mem_filter, putCache]⟩

theorem forEachIm_suff (step : DMState → String → Option (Except String GoPackage × DMState))
    (pkgPath : String) (U : Finset String) (fuel : Nat)
    (hmono : ∀ st im out, step st im = some out → cacheLe st out.2)
    (hsuff : ∀ st im, missingCount U st < fuel → step st im ≠ none) :
    ∀ ims st, missingCount U st < fuel → forEachIm step pkgPath st ims ≠ none := by
  intro ims
  induction ims with
  | nil => intro st _; simp [forEachIm]
  | cons im rest ih =>
    intro st hm
    simp only [forEachIm]
    by_cases hC : im = "C"
    · rw [if_pos hC]
      exact ih st hm
    · rw [if_neg hC]
      cases hs : step st im with
      | none => exact absurd hs (hsuff st im hm)
      | some res =>
        obtain ⟨res1, st2⟩ := res
        cases res1 with
        | error e => simp
        | ok importedPkg =>
          have hle := hmono st im (Except.ok importedPkg, st2) hs
          have hm2 : missingCount U (addEdge st2 pkgPath importedPkg.importPath) < fuel := by
            rw [addEdge_missingCount]
            exact lt_of_le_of_lt (missingCount_le_of_cacheLe U hle) hm
          exact ih _ hm2

theorem Import_suff (r : Resolver) (U : Finset String) (hB : Bounded r U) :
    ∀ fuel st path srcDir, missingCount U st < fuel → Import r fuel st path srcDir ≠ none := by
  intro fuel
  induction fuel with
  | zero => intro st path srcDir hm; exact absurd hm (Nat.not_lt_zero _)
  | succ fuel ih =>
    intro st path srcDir hm
    simp only [Import]
    split
    · simp
    · rename_i pkg hr
      split
      · simp
      · rename_i hc
        have hlt : missingCount U (putCache st pkg) < fuel := by
          have h1 := missingCount_putCache_lt U (hB path srcDir pkg hr) hc
          omega
        have hne := forEachIm_suff (fun st2 im => Import r fuel st2 im pkg.dir)
          pkg.importPath U fuel
          (fun st2 im out h2 => Import_mono r fuel st2 im pkg.dir out h2)
          (fun st2 im h2 => ih st2 im pkg.dir h2)
          pkg.directImports (putCache st pkg) hlt
        split
        · rename_i hf
          exact absurd hf hne
        · simp
        · simp

theorem CacheKeyed_putCache {st : DMState} {pkg : GoPackage} (h : CacheKeyed st) :
    CacheKeyed (putCache st pkg) := by
  intro k pkg2 hk
  have hk2 : (if k = pkg.importPath then some pkg else st.cache k) = some pkg2 := hk
  by_cases hkp : k = pkg.importPath
  · rw [if_pos hkp] at hk2
    injection hk2 with h2
    rw [← h2]
    exact hkp.symm
  · rw [if_neg hkp] at hk2
    exact h k pkg2 hk2

theorem putCache_isSome {st : DMState} {pkg : GoPackage} {q : String}
    (h : (st.cache q).isSome) : ((putCache st pkg).cache q).isSome := by
  show (if q = pkg.importPath then some pkg else st.cache q).isSome
  by_cases hq : q = pkg.importPath
  · simp [hq]
  · simpa [hq] using h

theorem EdgesResolved_putCache {st : DMState} {pkg : GoPackage} (h : EdgesResolved st) :
    EdgesResolved (putCache st pkg) := by
  intro p s hs q hq
  exact putCache_isSome (h p s hs q hq)

theorem EdgesResolved_addEdge {st : DMState} {p q : String}
    (h : EdgesResolved st) (hq : (st.cache q).isSome) :
    EdgesResolved (addEdge st p q) := by
  intro p2 s2 hs2 x hx
  have hs3 : (if p2 = p then
      match st.deps p with
      | none => some [q]
      | some s => some (if q ∈ s then s else s ++ [q])
      else st.deps p2) = some s2 := hs2
  by_cases hp2 : p2 = p
  · rw [if_pos hp2] at hs3
    cases hd : st.deps p with
    | none =>
      rw [hd] at hs3
      injection hs3 with h3
      rw [← h3] at hx
      simp only [List.mem_singleton] at hx
      rw [hx]
      exact hq
    | some s =>
      rw [hd] at hs3
      injection hs3 with h3
      rw [← h3] at hx
      by_cases hqs : q ∈ s
      · rw [if_pos hqs] at hx
        exact h p s hd x hx
      · rw [if_neg hqs] at hx
        rcases List.mem_append.mp hx with hx2 | hx2
        · exact h p s hd x hx2
        · simp only [List.mem_singleton] at hx2
          rw [hx2]
          exact hq
  · rw [if_neg hp2] at hs3
    exact h p2 s2 hs3 x hx

theorem forEachIm_inv (step : DMState → String → Option (Except String GoPackage × DMState))
    (pkgPath : String)
    (hstep : ∀ st im out, CacheKeyed st → EdgesResolved st → step st im = some out →
      CacheKeyed out.2 ∧ EdgesResolved out.2 ∧
        (∀ pkg2, out.1 = Except.ok pkg2 → out.2.cache pkg2.importPath = some pkg2)) :
    ∀ ims st out, CacheKeyed st → EdgesResolved st →
      forEachIm step pkgPath st ims = some out →
      CacheKeyed out.2 ∧ EdgesResolved out.2 := by
  intro ims
  induction ims with
  | nil =>
    intro st out hCK hER h
    simp only [forEachIm, Option.some.injEq] at h
    rw [← h]
    exact ⟨hCK, hER⟩
  | cons im rest ih =>
    intro st out hCK hER h
    simp only [forEachIm] at h
    by_cases hC : im = "C"
    · rw [if_pos hC] at h
      exact ih st out hCK hER h
    · rw [if_neg hC] at h
      cases hs : step st im with
      | none => rw [hs] at h; exact absurd h (by simp)
      | some res =>
        rw [hs] at h
        obtain ⟨res1, st2⟩ := res
        obtain ⟨hCK2, hER2, hok⟩ := hstep st im (res1, st2) hCK hER hs
        cases res1 with
        | error e =>
          simp only [Option.some.injEq] at h
          rw [← h]
          exact ⟨hCK2, hER2⟩
        | ok importedPkg =>
          simp only at h
          have hcached : st2.cache importedPkg.importPath = some importedPkg :=
            hok importedPkg rfl
          have hER3 : EdgesResolved (addEdge st2 pkgPath importedPkg.importPath) :=
            EdgesResolved_addEdge hER2 (by rw [hcached]; rfl)
          exact ih (addEdge st2 pkgPath importedPkg.importPath) out hCK2 hER3 h

theorem Import_inv (r : Resolver) :
    ∀ fuel st path srcDir out, CacheKeyed st → EdgesResolved st →
      Import r fuel st path srcDir = some out →
      CacheKeyed out.2 ∧ EdgesResolved out.2 ∧
        (∀ pkg2, out.1 = Except.ok pkg2 → out.2.cache pkg2.importPath = some pkg2) := by
  intro fuel
  induction fuel with
  | zero => intro st path srcDir out _ _ h; exact absurd h (by simp [Import])
  | succ fuel ih =>
    intro st path srcDir out hCK hER h
    simp only [Import] at h
    split at h
    · simp only [Option.some.injEq] at h
      rw [← h]
      exact ⟨hCK, hER, fun pkg2 h2 => absurd h2 (by simp)⟩
    · rename_i pkg hr
      split at h
      · rename_i cachedPkg hc
        simp only [Option.some.injEq] at h
        rw [← h]
        refine ⟨hCK, hER, ?_⟩
        intro pkg2 h2
        injection h2 with h3
        rw [← h3]
        have hkey := hCK pkg.importPath cachedPkg hc
        rw [hkey]
        exact hc
      · rename_i hc
        have hCK1 : CacheKeyed (putCache st pkg) := CacheKeyed_putCache hCK
        have hER1 : EdgesResolved (putCache st pkg) := EdgesResolved_putCache hER
        split at h
        · exact absurd h (by simp)
        · rename_i e st2 hf
          obtain ⟨hCK2, hER2⟩ := forEachIm_inv _ pkg.importPath
            (fun st3 im out2 a b c => ih st3 im pkg.dir out2 a b c)
            pkg.directImports (putCache st pkg) (Except.error e, st2) hCK1 hER1 hf
          simp only [Option.some.injEq] at h
          rw [← h]
          exact ⟨hCK2, hER2, fun pkg2 h2 => absurd h2 (by simp)⟩
        · rename_i u st2 hf
          obtain ⟨hCK2, hER2⟩ := forEachIm_inv _ pkg.importPath
            (fun st3 im out2 a b c => ih st3 im pkg.dir out2 a b c)
            pkg.directImports (putCache st pkg) (Except.ok u, st2) hCK1 hER1 hf
          have hmono := forEachIm_mono _ pkg.importPath
            (fun st3 im out2 h2 => Import_mono r fuel st3 im pkg.dir out2 h2)
            pkg.directImports (putCache st pkg) (Except.ok u, st2) hf
          simp only [Option.some.injEq] at h
          rw [← h]
          refine ⟨hCK2, hER2, ?_⟩
          intro pkg2 h2
          injection h2 with h3
          rw [← h3]
          exact hmono pkg.importPath pkg (by simp [putCache])

theorem addDeps_keep_false (d : String → Option (List String)) (fuel : Nat)
    (deps : List String) (path : String) (keep : String → Bool)
    (h : keep path = false) : addDeps d (fuel + 1) deps path keep = some deps := by
  simp [addDeps, h]

theorem forEachDep_nodup (step : List String → String → Option (List String))
    (hstep : ∀ ds im out, ds.Nodup → step ds im = some out → out.Nodup) :
    ∀ ims ds out, ds.Nodup → forEachDep step ds ims = some out → out.Nodup := by
  intro ims
  induction ims with
  | nil =>
    intro ds out hnd h
    simp only [forEachDep, Option.some.injEq] at h
    rw [← h]
    exact hnd
  | cons im rest ih =>
    intro ds out hnd h
    simp only [forEachDep] at h
    cases hs : step ds im with
    | none => rw [hs] at h; exact absurd h (by simp)
    | some ds2 =>
      rw [hs] at h
      exact ih ds2 out (hstep ds im ds2 hnd hs) h

theorem addDeps_nodup (d : String → Option (List String)) :
    ∀ fuel deps path keep out, deps.Nodup →
      addDeps d fuel deps path keep = some out → out.Nodup := by
  intro fuel
  induction fuel with
  | zero => intro deps path keep out _ h; exact absurd h (by simp [addDeps])
  | succ fuel ih =>
    intro deps path keep out hnd h
    simp only [addDeps] at h
    split at h
    · simp only [Option.some.injEq] at h
      rw [← h]
      exact hnd
    · split at h
      · simp only [Option.some.injEq] at h
        rw [← h]
        exact hnd
      · rename_i hkeep hmem
        have hnd2 : (deps ++ [path]).Nodup := by
          simp [List.nodup_append, hnd, List.disjoint_singleton, hmem]
        exact forEachDep_nodup _ (fun ds im out2 a b => ih ds im keep out2 a b)
          _ _ out hnd2 h

theorem forEachDep_allkeep (step : List String → String → Option (List String))
    (keep : String → Bool)
    (hstep : ∀ ds im out, (∀ x ∈ ds, keep x = true) → step ds im = some out →
      ∀ x ∈ out, keep x = true) :
    ∀ ims ds out, (∀ x ∈ ds, keep x = true) → forEachDep step ds ims = some out →
      ∀ x ∈ out, keep x = true := by
  intro ims
  induction ims with
  | nil =>
    intro ds out hall h
    simp only [forEachDep, Option.some.injEq] at h
    rw [← h]
    exact hall
  | cons im rest ih =>
    intro ds out hall h
    simp only [forEachDep] at h
    cases hs : step ds im with
    | none => rw [hs] at h; exact absurd h (by simp)
    | some ds2 =>
      rw [hs] at h
      exact ih ds2 out (hstep ds im ds2 hall hs) h

theorem addDeps_allkeep (d : String → Option (List String)) :
    ∀ fuel deps path keep out, (∀ x ∈ deps, keep x = true) →
      addDeps d fuel deps path keep = some out → ∀ x ∈ out, keep x = true := by
  intro fuel
  induction fuel with
  | zero => intro deps path keep out _ h; exact absurd h (by simp [addDeps])
  | succ fuel ih =>
    intro deps path keep out hall h
    simp only [addDeps] at h
    split at h
    · simp only [Option.some.injEq] at h
      rw [← h]
      exact hall
    · split at h
      · simp only [Option.some.injEq] at h
        rw [← h]
        exact hall
      · rename_i hkeep hmem
        have hkp : keep path = true := by
          cases hkp2 : keep path
          · exact absurd hkp2 hkeep
          · rfl
        have hall2 : ∀ x ∈ deps ++ [path], keep x = true := by
          intro x hx
          rcases List.mem_append.mp hx with hx2 | hx2
          · exact hall x hx2
          · simp only [List.mem_singleton] at hx2
            rw [hx2]
            exact hkp
        exact forEachDep_allkeep _ keep (fun ds im out2 a b => ih ds im keep out2 a b)
          _ _ out hall2 h

theorem goSplitN2_head (s : String) (sep : Char) :
    (goSplitN2 s sep).headD [] = s.toList.takeWhile (fun c => c ≠ sep) := by
  unfold goSplitN2
  split
  · rfl
  · rename_i hmem
    simp only [List.headD]
    symm
    rw [List.takeWhile_eq_self_iff]
    intro a ha
    simp only [ne_eq, decide_eq_true_eq]
    intro h2
    rw [h2] at ha
    exact hmem ha

/-- C1: the graph builder terminates on every finite import graph, cycles
included: with fuel exceeding the number of still-uncached identifiers of
the finite universe the resolver can produce, `Import` never exhausts its
fuel; any call whose resolved canonical identifier is already cached
returns the cached descriptor immediately with the state unchanged (no
recursion, no new edges); and on the two-package cycle A -> B -> A the run
succeeds and both A and B end up with their correct direct-edge entries. -/
theorem c1_Import_terminates_on_cycles :
    (∀ (r : Resolver) (U : Finset String), Bounded r U →
      ∀ fuel st path srcDir, missingCount U st < fuel →
        Import r fuel st path srcDir ≠ none)
    ∧ (∀ (r : Resolver) (fuel : Nat) (st : DMState) (path srcDir : String)
        (pkg cachedPkg : GoPackage),
        r path srcDir = Except.ok pkg →
        st.cache pkg.importPath = some cachedPkg →
        Import r (fuel + 1) st path srcDir = some (Except.ok cachedPkg, st))
    ∧ ((Import rAB 10 initState "A" "/").map (fun out =>
        (out.1.toOption, out.2.deps "A", out.2.deps "B")) =
        some (some pkgA, some ["B"], some ["A"])) := by
  refine ⟨Import_suff, ?_, by decide⟩
  intro r fuel st path srcDir pkg cachedPkg hr hc
  simp [Import, hr, hc]

/-- C1 witness: the hypotheses are satisfiable — the cycle resolver `rAB`
is bounded by the universe containing A and B, three units of fuel
terminate from the empty state, and a cache hit on B returns the cached
descriptor unchanged. -/
theorem c1_witness :
    Bounded rAB {"A", "B"} ∧ missingCount {"A", "B"} initState < 3 ∧
    Import rAB 3 initState "A" "/" ≠ none ∧
    Import rAB 1 (putCache initState pkgB) "B" "/" =
      some (Except.ok pkgB, putCache initState pkgB) := by
  have hB : Bounded rAB {"A", "B"} := by
    intro path srcDir pkg h
    unfold rAB at h
    split at h
    · injection h with h2
      rw [← h2]
      decide
    · split at h
      · injection h with h2
        rw [← h2]
        decide
      · exact absurd h (by simp)
  refine ⟨hB, by decide, ?_, ?_⟩
  · exact c1_Import_terminates_on_cycles.1 rAB {"A", "B"} hB 3 initState "A" "/" (by decide)
  · exact c1_Import_terminates_on_cycles.2.1 rAB 0 (putCache initState pkgB) "B" "/"
      pkgB pkgB rfl rfl

/-- C2 counterexample: resolving P — whose direct entries are A and then B,
with B failing to resolve — returns an error yet leaves the edge table
holding a key for P (with the single edge to A), while P's direct entry B
was never resolved: nothing is cached under B.  So an edge-table entry for
a package can be observed before all of that package's direct entries have
been resolved. -/
theorem c2_counterexample :
    ((Import rPAB 10 initState "P" "/").map (fun out =>
      ((out.2.deps "P").isSome, out.2.deps "P", out.2.cache "B", out.1.toOption)) =
      some (true, some ["A"], none, none))
    ∧ "B" ∈ pkgP.directImports := by
  exact ⟨by decide, by decide⟩

/-- C2 (amended): edges are recorded one at a time, so an edge-table entry
for P can exist while later direct entries of P are still unresolved (see
the counterexample); what does hold at every observable point is that each
recorded edge points at an already-resolved package: from any state whose
cache is keyed by canonical identifier and whose recorded edge targets are
all cached, any `Import` call — successful or failed — leaves a state with
those same two properties. -/
theorem c2_amended_edges_resolved (r : Resolver) (fuel : Nat) (st : DMState)
    (path srcDir : String) (out : Except String GoPackage × DMState)
    (hCK : CacheKeyed st) (hER : EdgesResolved st)
    (h : Import r fuel st path srcDir = some out) :
    CacheKeyed out.2 ∧ EdgesResolved out.2 :=
  ⟨(Import_inv r fuel st path srcDir out hCK hER h).1,
   (Import_inv r fuel st path srcDir out hCK hER h).2.1⟩

/-- C2 amended-claim witness: applied to a concrete cache-hit call. -/
theorem c2_amended_witness :
    CacheKeyed (putCache initState pkgB) ∧ EdgesResolved (putCache initState pkgB) := by
  have hCK : CacheKeyed initState := fun k pkg h => by simp [initState] at h
  have hER : EdgesResolved initState := fun p s h => by simp [initState] at h
  exact c2_amended_edges_resolved rAB 1 (putCache initState pkgB) "B" "/"
    (Except.ok pkgB, putCache initState pkgB)
    (CacheKeyed_putCache hCK) (EdgesResolved_putCache hER) rfl

/-- C3: a node whose filter value is false is pruned together with its
whole subtree: `addDeps` returns the visited set unchanged, neither marking
the node nor descending; on the chain A -> B -> C with keep(B) false and
keep(C) true, the count from A is 1 — neither B nor C is counted, even
though C alone satisfies the filter. -/
theorem c3_subtree_pruned :
    (∀ (d : String → Option (List String)) (fuel : Nat) (deps : List String)
      (path : String) (keep : String → Bool), keep path = false →
        addDeps d (fuel + 1) deps path keep = some deps)
    ∧ CoundDepsRecursive exChainD 10 "A" keepNotB = some 1 :=
  ⟨addDeps_keep_false, by decide⟩

/-- C3 witness: visiting the rejected node B leaves the visited set
untouched. -/
theorem c3_witness :
    keepNotB "B" = false ∧ addDeps exChainD 5 ["A"] "B" keepNotB = some ["A"] :=
  ⟨rfl, c3_subtree_pruned.1 exChainD 4 ["A"] "B" keepNotB rfl⟩

/-- C4: every reachable, filter-surviving node is counted exactly once: the
visited set stays duplicate-free through `addDeps` (a node reached again
through a cycle or a shared path is never re-added), and on the diamond
A -> B, A -> C, B -> D, C -> D the count from A under the always-true
filter is 4, not 5. -/
theorem c4_counted_once :
    (∀ (d : String → Option (List String)) (fuel : Nat) (deps : List String)
      (path : String) (keep : String → Bool) (out : List String), deps.Nodup →
        addDeps d fuel deps path keep = some out → out.Nodup)
    ∧ CoundDepsRecursive exDiamond 10 "A" (fun _ => true) = some 4 :=
  ⟨fun d fuel deps path keep out => addDeps_nodup d fuel deps path keep out, by decide⟩

/-- C4 witness: the diamond traversal's visited set is duplicate-free. -/
theorem c4_witness : (["A", "B", "D", "C"] : List String).Nodup :=
  c4_counted_once.1 exDiamond 10 [] "A" (fun _ => true) ["A", "B", "D", "C"]
    (by decide) (by decide)

/-- C5: resolution errors are fail-fast: when a direct entry fails to
resolve, the loop stops at it — the same error is returned whatever
sibling entries would follow, which are not attempted — and the enclosing
`Import` call propagates that error unchanged, with no descriptor
result. -/
theorem c5_fail_fast :
    (∀ (r : Resolver) (fuel : Nat) (st : DMState) (pkg : GoPackage)
      (im e : String) (st2 : DMState), im ≠ "C" →
      Import r fuel st im pkg.dir = some (Except.error e, st2) →
      ∀ rest, forEachIm (fun st3 im2 => Import r fuel st3 im2 pkg.dir)
        pkg.importPath st (im :: rest) = some (Except.error e, st2))
    ∧ (∀ (r : Resolver) (fuel : Nat) (st : DMState) (path srcDir : String)
      (pkg : GoPackage) (e : String) (st2 : DMState),
      r path srcDir = Except.ok pkg → st.cache pkg.importPath = none →
      forEachIm (fun st3 im => Import r fuel st3 im pkg.dir) pkg.importPath
        (putCache st pkg) pkg.directImports = some (Except.error e, st2) →
      Import r (fuel + 1) st path srcDir = some (Except.error e, st2)) := by
  constructor
  · intro r fuel st pkg im e st2 hC h rest
    simp only [forEachIm]
    rw [if_neg hC, h]
  · intro r fuel st path srcDir pkg e st2 hr hc hf
    simp [Import, hr, hc, hf]

/-- C5 witness: with B failing to resolve, the loop on B's position
returns B's error without touching the sibling X, and the `Import` call
for Q (which lists only B) returns the same error. -/
theorem c5_witness :
    forEachIm (fun st3 im2 => Import rPAB 5 st3 im2 pkgP.dir) pkgP.importPath
      initState ["B", "X"] = some (Except.error "B not found", initState) ∧
    Import rQ 2 initState "Q" "/" =
      some (Except.error "B not found", putCache initState pkgQ) := by
  constructor
  · exact c5_fail_fast.1 rPAB 5 initState pkgP "B" "B not found" initState
      (by decide) rfl ["X"]
  · exact c5_fail_fast.2 rQ 1 initState "Q" "/" pkgQ "B not found"
      (putCache initState pkgQ) rfl rfl rfl

/-- C6: the cgo sentinel "C" in a direct-entry list is skipped: the loop on
"C" followed by the rest equals the loop on the rest alone (no resolver
call, no edge, no error for the sentinel), and a package listing the
sentinel resolves successfully — its other entries are processed normally,
while the sentinel contributes no edge and nothing is cached under "C". -/
theorem c6_cgo_sentinel_skipped :
    (∀ (step : DMState → String → Option (Except String GoPackage × DMState))
      (pkgPath : String) (st : DMState) (rest : List String),
      forEachIm step pkgPath st ("C" :: rest) = forEachIm step pkgPath st rest)
    ∧ ((Import rCgo 10 initState "P" "/").map (fun out =>
        (out.1.toOption, out.2.deps "P", out.2.cache "C")) =
        some (some pkgCgo, some ["A"], none)) := by
  constructor
  · intro step pkgPath st rest
    simp [forEachIm]
  · decide

/-- C7: `IsStandardPackage` classifies an import path as standard exactly
when its first path segment — the characters before the first slash —
contains no dot; it is a pure function of the string. -/
theorem c7_standard_iff_dotfree_first_segment (s : String) :
    IsStandardPackage s = true ↔ '.' ∉ firstSegment s := by
  simp only [IsStandardPackage, firstSegment, goSplitN2_head]
  simp

/-- C8: when the filter rejects the root, the count is 0, whatever the
edge table holds for the root. -/
theorem c8_root_rejected_counts_zero (d : String → Option (List String))
    (fuel : Nat) (path : String) (keep : String → Bool)
    (h : keep path = false) :
    CoundDepsRecursive d (fuel + 1) path keep = some 0 := by
  unfold CoundDepsRecursive
  rw [addDeps_keep_false d fuel [] path keep h]
  rfl

/-- C8 witness: the diamond root A under the constantly-false filter. -/
theorem c8_witness :
    CoundDepsRecursive exDiamond 7 "A" (fun _ => false) = some 0 :=
  c8_root_rejected_counts_zero exDiamond 6 "A" (fun _ => false) rfl

/-- C9: `IsStandardPackage` is total and safe on every input string: the
modelled `strings.SplitN` with limit 2 always returns a non-empty list (so
taking its first element is always in bounds), and the empty import path
is classified as standard. -/
theorem c9_IsStandardPackage_total :
    (∀ (s : String) (sep : Char), goSplitN2 s sep ≠ [])
    ∧ IsStandardPackage "" = true := by
  constructor
  · intro s sep
    unfold goSplitN2
    split
    · simp
    · simp
  · decide

/-- C10: every identifier in the visited set satisfies the filter: from a
visited set all of whose members satisfy `keep`, every `addDeps` step
preserves that invariant, so the returned count never includes a node for
which `keep` is false. -/
theorem c10_visited_satisfy_keep (d : String → Option (List String))
    (fuel : Nat) (deps : List String) (path : String) (keep : String → Bool)
    (out : List String) (hall : ∀ x ∈ deps, keep x = true)
    (h : addDeps d fuel deps path keep = some out) :
    ∀ x ∈ out, keep x = true :=
  addDeps_allkeep d fuel deps path keep out hall h

/-- C10 witness: the node A counted on the chain satisfies the filter. -/
theorem c10_witness : keepNotB "A" = true :=
  c10_visited_satisfy_keep exChainD 5 [] "A" keepNotB ["A"]
    (by simp) (by decide) "A" (by decide)
